import Mathlib

/-!
A shallow embedding of the allocation sorter interface of
src/master/allocator/sorter/sorter.hpp (Apache Mesos).

The one concrete class in that file is ScalarResourceQuantities: a vector of
(resource name, scalar) pairs kept sorted by name. Its members (contains, at
and the subscript operator) are embedded below as linear scans over a list,
following the C++ loops statement by statement. Scalar values (C++ doubles)
are modelled as rationals and the std::string order as lexicographic order
on the character lists of the strings.

The Sorter class itself is an abstract interface in the source file (every
method is pure virtual), so every operation behind the claims about sorting,
activation, weights and the allocation ledger is modelled from the spec, as
marked on each such definition.
-/

/-- Lexicographic strict order on character lists: the embedding of the
std::string comparison the C++ code uses to keep quantity vectors sorted.
Defined as an executable Bool so that concrete states reduce in the kernel. -/
def charsLt : List Char → List Char → Bool
  | [], [] => false
  | [], _ :: _ => true
  | _ :: _, [] => false
  | c :: cs, d :: ds => if c < d then true else if d < c then false else charsLt cs ds

/-- Strict lexicographic order on strings via their character lists. -/
def strLtB (a b : String) : Bool := charsLt a.data b.data

/-- Reflexive closure used as a tie break: a is not strictly greater than b. -/
def strLeB (a b : String) : Bool := ! strLtB b a

theorem charsLt_irrefl (x : List Char) : charsLt x x = false := by
  induction x with
  | nil => rfl
  | cons c cs ih => simp [charsLt, lt_irrefl, ih]

theorem charsLt_trans {x : List Char} : ∀ {y z : List Char},
    charsLt x y = true → charsLt y z = true → charsLt x z = true := by
  induction x with
  | nil =>
    intro y z hxy hyz
    cases y with
    | nil => simp [charsLt] at hxy
    | cons d ds =>
      cases z with
      | nil => simp [charsLt] at hyz
      | cons e es => simp [charsLt]
  | cons c cs ih =>
    intro y z hxy hyz
    cases y with
    | nil => simp [charsLt] at hxy
    | cons d ds =>
      cases z with
      | nil => simp [charsLt] at hyz
      | cons e es =>
        simp only [charsLt] at hxy hyz ⊢
        by_cases h1 : c < d
        · by_cases h2 : d < e
          · simp [lt_trans h1 h2]
          · by_cases h3 : e < d
            · simp [h2, h3] at hyz
            · have hde : d = e := le_antisymm (not_lt.mp h3) (not_lt.mp h2)
              subst hde
              simp [h1]
        · by_cases h1b : d < c
          · simp [h1, h1b] at hxy
          · have hcd : c = d := le_antisymm (not_lt.mp h1b) (not_lt.mp h1)
            subst hcd
            simp only [lt_irrefl, if_false] at hxy
            by_cases h2 : c < e
            · simp [h2]
            · by_cases h3 : e < c
              · simp [h2, h3] at hyz
              · have hce : c = e := le_antisymm (not_lt.mp h3) (not_lt.mp h2)
                subst hce
                simp only [lt_irrefl, if_false] at hyz ⊢
                exact ih hxy hyz

theorem charsLt_trichotomy : ∀ (x y : List Char),
    charsLt x y = true ∨ x = y ∨ charsLt y x = true
  | [], [] => Or.inr (Or.inl rfl)
  | [], _ :: _ => Or.inl rfl
  | _ :: _, [] => Or.inr (Or.inr rfl)
  | c :: cs, d :: ds => by
    rcases lt_trichotomy c d with h | h | h
    · exact Or.inl (by simp [charsLt, h])
    · subst h
      rcases charsLt_trichotomy cs ds with h2 | h2 | h2
      · exact Or.inl (by simp [charsLt, lt_irrefl, h2])
      · exact Or.inr (Or.inl (by rw [h2]))
      · exact Or.inr (Or.inr (by simp [charsLt, lt_irrefl, h2]))
    · exact Or.inr (Or.inr (by simp [charsLt, h, asymm h]))

theorem string_eq_of_data_eq {a b : String} (h : a.data = b.data) : a = b := by
  cases a
  cases b
  exact congrArg String.mk h

theorem strLtB_irrefl (a : String) : strLtB a a = false := charsLt_irrefl a.data

theorem strLtB_trans {a b c : String} (h1 : strLtB a b = true)
    (h2 : strLtB b c = true) : strLtB a c = true := charsLt_trans h1 h2

theorem strLtB_trichotomy (a b : String) :
    strLtB a b = true ∨ a = b ∨ strLtB b a = true := by
  rcases charsLt_trichotomy a.data b.data with h | h | h
  · exact Or.inl h
  · exact Or.inr (Or.inl (string_eq_of_data_eq h))
  · exact Or.inr (Or.inr h)

theorem strLtB_asymm {a b : String} (h : strLtB a b = true) : strLtB b a = false := by
  cases hv : strLtB b a with
  | false => rfl
  | true =>
    have h2 := strLtB_trans h hv
    rw [strLtB_irrefl] at h2
    simp at h2

theorem strLtB_ne {a b : String} (h : strLtB a b = true) : a ≠ b := by
  intro he
  subst he
  rw [strLtB_irrefl] at h
  exact Bool.false_ne_true h

theorem strLeB_total (a b : String) : strLeB a b = true ∨ strLeB b a = true := by
  unfold strLeB
  rcases strLtB_trichotomy a b with h | h | h
  · exact Or.inl (by rw [strLtB_asymm h]; rfl)
  · subst h
    exact Or.inl (by rw [strLtB_irrefl]; rfl)
  · exact Or.inr (by rw [strLtB_asymm h]; rfl)

theorem strLeB_trans {a b c : String} (h1 : strLeB a b = true)
    (h2 : strLeB b c = true) : strLeB a c = true := by
  unfold strLeB at h1 h2 ⊢
  cases hba : strLtB b a with
  | true => rw [hba] at h1; simp at h1
  | false =>
  cases hcb : strLtB c b with
  | true => rw [hcb] at h2; simp at h2
  | false =>
  cases hca : strLtB c a with
  | false => rfl
  | true =>
    rcases strLtB_trichotomy a b with h | h | h
    · have h3 := strLtB_trans hca h
      rw [h3] at hcb
      simp at hcb
    · subst h
      rw [hca] at hcb
      simp at hcb
    · rw [h] at hba
      simp at hba

/-- Executable rational addition written through Rat.divInt so that concrete
states reduce inside the kernel; proved equal to ordinary addition below. -/
def ratAdd (a b : Rat) : Rat := Rat.divInt (a.num * b.den + b.num * a.den) (a.den * b.den)

/-- Executable rational subtraction through Rat.divInt. -/
def ratSub (a b : Rat) : Rat := Rat.divInt (a.num * b.den - b.num * a.den) (a.den * b.den)

/-- Executable rational division through Rat.divInt. -/
def ratDiv (a b : Rat) : Rat := Rat.divInt (a.num * b.den) (a.den * b.num)

/-- Executable maximum of two rationals. -/
def ratMax (a b : Rat) : Rat := if a < b then b else a

theorem rat_num_eq (a : Rat) : (a.num : ℚ) = a * (a.den : ℚ) := by
  have h := Rat.num_div_den a
  have ha : ((a.den : ℚ)) ≠ 0 := by
    exact_mod_cast a.den_ne_zero
  calc (a.num : ℚ) = ((a.num : ℚ) / (a.den : ℚ)) * (a.den : ℚ) := by
        rw [div_mul_cancel₀ _ ha]
    _ = a * (a.den : ℚ) := by rw [h]

theorem ratAdd_eq (a b : Rat) : ratAdd a b = a + b := by
  rw [ratAdd, Rat.divInt_eq_div]
  have ha : ((a.den : ℚ)) ≠ 0 := by
    exact_mod_cast a.den_ne_zero
  have hb : ((b.den : ℚ)) ≠ 0 := by
    exact_mod_cast b.den_ne_zero
  conv_rhs => rw [← Rat.num_div_den a, ← Rat.num_div_den b]
  rw [div_add_div _ _ ha hb]
  push_cast
  ring_nf

theorem ratSub_eq (a b : Rat) : ratSub a b = a - b := by
  rw [ratSub, Rat.divInt_eq_div]
  have ha : ((a.den : ℚ)) ≠ 0 := by
    exact_mod_cast a.den_ne_zero
  have hb : ((b.den : ℚ)) ≠ 0 := by
    exact_mod_cast b.den_ne_zero
  conv_rhs => rw [← Rat.num_div_den a, ← Rat.num_div_den b]
  rw [div_sub_div _ _ ha hb]
  push_cast
  ring_nf

theorem ratDiv_eq (a b : Rat) : ratDiv a b = a / b := by
  rcases eq_or_ne b 0 with hb | hb
  · subst hb
    simp [ratDiv, Rat.num_ofNat, Rat.den_ofNat]
  · rw [ratDiv, Rat.divInt_eq_div]
    have ha : ((a.den : ℚ)) ≠ 0 := by
      exact_mod_cast a.den_ne_zero
    have hbn : ((b.num : ℚ)) ≠ 0 := by
      exact_mod_cast Rat.num_ne_zero.mpr hb
    have hY : (((a.den * b.num : ℤ)) : ℚ) ≠ 0 := by
      push_cast
      exact mul_ne_zero ha hbn
    rw [div_eq_div_iff hY hb]
    push_cast
    rw [rat_num_eq a, rat_num_eq b]
    ring

theorem ratMax_eq (a b : Rat) : ratMax a b = max a b := by
  unfold ratMax
  rcases lt_trichotomy a b with h | h | h
  · rw [if_pos h, max_eq_right (le_of_lt h)]
  · subst h
    simp
  · rw [if_neg (not_lt.mpr (le_of_lt h)), max_eq_left (le_of_lt h)]

/-- Scalar quantity maps: the list of (resource name, scalar value) pairs
underlying the C++ vector, in its iteration order. -/
abbrev SQ := List (String × Rat)

namespace ScalarResourceQuantities

/-- Embedding of ScalarResourceQuantities::contains from the source: a linear
scan that answers, at the first entry carrying the name, whether its value is
strictly positive, and false when the scan falls off the end. -/
def contains : SQ → String → Bool
  | [], _ => false
  | (n, v) :: rest, name => if n = name then decide (0 < v) else contains rest name

/-- Embedding of ScalarResourceQuantities::at from the source (at is a
reserved word in Lean): a linear scan returning the first entry carrying the
name; none models the LOG(FATAL) branch reached when the name is absent. -/
def atQ : SQ → String → Option Rat
  | [], _ => none
  | (n, v) :: rest, name => if n = name then some v else atQ rest name

/-- Embedding of the subscript operator of ScalarResourceQuantities: the
state of the vector after the call. The scan returns the existing entry when
the name is found, breaks at the first entry with a greater name, and inserts
a zero-initialized entry at the break position when the name is absent. -/
def index : SQ → String → SQ
  | [], name => [(name, 0)]
  | (n, v) :: rest, name =>
    if n = name then (n, v) :: rest
    else if strLtB name n then (name, 0) :: (n, v) :: rest
    else (n, v) :: index rest name

end ScalarResourceQuantities

/-- The documented invariant of the quantities vector: entry names strictly
ascending in the std::string order. -/
def SortedQ (l : SQ) : Prop := l.Pairwise (fun p q => strLtB p.1 q.1 = true)

instance (l : SQ) : Decidable (SortedQ l) :=
  inferInstanceAs
    (Decidable (List.Pairwise (fun (p q : String × Rat) => strLtB p.1 q.1 = true) l))

theorem sortedQ_nil : SortedQ [] := List.Pairwise.nil

theorem sortedQ_cons {p : String × Rat} {t : SQ} :
    SortedQ (p :: t) ↔ (∀ q ∈ t, strLtB p.1 q.1 = true) ∧ SortedQ t :=
  List.pairwise_cons

namespace ScalarResourceQuantities

theorem atQ_some_mem : ∀ {m : SQ} {name : String} {v : Rat},
    atQ m name = some v → (name, v) ∈ m := by
  intro m
  induction m with
  | nil =>
    intro name v h
    simp [atQ] at h
  | cons p rest ih =>
    intro name v h
    obtain ⟨n, w⟩ := p
    by_cases hn : n = name
    · subst hn
      simp [atQ] at h
      subst h
      exact List.mem_cons_self _ _
    · simp [atQ, hn] at h
      exact List.mem_cons_of_mem _ (ih h)

theorem atQ_eq_none : ∀ {m : SQ} {name : String},
    (∀ p ∈ m, p.1 ≠ name) → atQ m name = none := by
  intro m
  induction m with
  | nil =>
    intro name _
    rfl
  | cons p rest ih =>
    intro name h
    obtain ⟨n, w⟩ := p
    have hn : n ≠ name := h (n, w) (List.mem_cons_self _ _)
    simp [atQ, hn]
    exact ih (fun q hq => h q (List.mem_cons_of_mem _ hq))

theorem index_key_mem : ∀ (m : SQ) (name : String),
    ∀ p ∈ index m name, p ∈ m ∨ p = (name, (0 : Rat)) := by
  intro m name
  induction m with
  | nil =>
    intro p hp
    simp [index] at hp
    exact Or.inr hp
  | cons q rest ih =>
    intro p hp
    obtain ⟨n, w⟩ := q
    by_cases hn : n = name
    · simp only [index, if_pos hn] at hp
      exact Or.inl hp
    · by_cases hlt : strLtB name n = true
      · simp only [index, if_neg hn, if_pos hlt] at hp
        rcases List.mem_cons.mp hp with h | h
        · exact Or.inr h
        · exact Or.inl h
      · simp only [index, if_neg hn, if_neg hlt] at hp
        rcases List.mem_cons.mp hp with h | h
        · exact Or.inl (List.mem_cons.mpr (Or.inl h))
        · rcases ih p h with h2 | h2
          · exact Or.inl (List.mem_cons_of_mem _ h2)
          · exact Or.inr h2

theorem sorted_index (m : SQ) (name : String) (hs : SortedQ m) :
    SortedQ (index m name) := by
  induction m with
  | nil =>
    rw [index, sortedQ_cons]
    exact ⟨by intro q hq; simp at hq, sortedQ_nil⟩
  | cons q rest ih =>
    obtain ⟨n, w⟩ := q
    rw [sortedQ_cons] at hs
    obtain ⟨hhead, htail⟩ := hs
    by_cases hn : n = name
    · simp only [index, if_pos hn]
      rw [sortedQ_cons]
      exact ⟨hhead, htail⟩
    · by_cases hlt : strLtB name n = true
      · simp only [index, if_neg hn, if_pos hlt]
        rw [sortedQ_cons]
        refine ⟨?_, ?_⟩
        · intro p hp
          rcases List.mem_cons.mp hp with h | h
          · rw [h]
            exact hlt
          · exact strLtB_trans hlt (hhead p h)
        · rw [sortedQ_cons]
          exact ⟨hhead, htail⟩
      · simp only [index, if_neg hn, if_neg hlt]
        rw [sortedQ_cons]
        refine ⟨?_, ih htail⟩
        intro p hp
        rcases index_key_mem rest name p hp with h | h
        · exact hhead p h
        · rw [h]
          rcases strLtB_trichotomy n name with h2 | h2 | h2
          · exact h2
          · exact absurd h2 hn
          · exact absurd h2 (by simpa using hlt)

theorem index_of_present (m : SQ) (name : String) (v : Rat) (hs : SortedQ m)
    (h : atQ m name = some v) : index m name = m := by
  induction m with
  | nil =>
    simp [atQ] at h
  | cons q rest ih =>
    obtain ⟨n, w⟩ := q
    rw [sortedQ_cons] at hs
    obtain ⟨hhead, htail⟩ := hs
    by_cases hn : n = name
    · simp [index, hn]
    · simp only [atQ, if_neg hn] at h
      have hmem := atQ_some_mem h
      have hlt : strLtB n name = true := hhead (name, v) hmem
      have hnlt : strLtB name n = false := strLtB_asymm hlt
      simp only [index, if_neg hn, hnlt, Bool.false_eq_true, if_false]
      rw [ih htail h]

theorem atQ_index_absent : ∀ (m : SQ) (name : String),
    atQ m name = none → atQ (index m name) name = some 0 := by
  intro m name
  induction m with
  | nil =>
    intro _
    simp [index, atQ]
  | cons q rest ih =>
    intro h
    obtain ⟨n, w⟩ := q
    by_cases hn : n = name
    · simp [atQ, hn] at h
    · simp only [atQ, if_neg hn] at h
      by_cases hlt : strLtB name n = true
      · simp [index, if_neg hn, hlt, atQ]
      · simp only [index, if_neg hn, if_neg hlt]
        simp only [atQ, if_neg hn]
        exact ih h

theorem mem_index_absent : ∀ (m : SQ) (name : String),
    atQ m name = none → (name, (0 : Rat)) ∈ index m name := by
  intro m name
  induction m with
  | nil =>
    intro _
    simp [index]
  | cons q rest ih =>
    intro h
    obtain ⟨n, w⟩ := q
    by_cases hn : n = name
    · simp [atQ, hn] at h
    · simp only [atQ, if_neg hn] at h
      by_cases hlt : strLtB name n = true
      · simp [index, if_neg hn, hlt]
      · simp only [index, if_neg hn, if_neg hlt]
        exact List.mem_cons_of_mem _ (ih h)

theorem contains_index_absent : ∀ (m : SQ) (name : String),
    atQ m name = none → contains (index m name) name = false := by
  intro m name
  induction m with
  | nil =>
    intro _
    simp [index, contains]
  | cons q rest ih =>
    intro h
    obtain ⟨n, w⟩ := q
    by_cases hn : n = name
    · simp [atQ, hn] at h
    · simp only [atQ, if_neg hn] at h
      by_cases hlt : strLtB name n = true
      · simp [index, if_neg hn, hlt, contains]
      · simp only [index, if_neg hn, if_neg hlt]
        simp only [contains, if_neg hn]
        exact ih h

theorem atQ_index_ne : ∀ (m : SQ) (name n2 : String), n2 ≠ name →
    atQ (index m name) n2 = atQ m n2 := by
  intro m name
  induction m with
  | nil =>
    intro n2 h
    have hne : name ≠ n2 := fun he => h he.symm
    simp [index, atQ, hne]
  | cons q rest ih =>
    intro n2 h
    obtain ⟨n, w⟩ := q
    by_cases hn : n = name
    · simp [index, hn]
    · by_cases hlt : strLtB name n = true
      · have hne : name ≠ n2 := fun he => h he.symm
        simp only [index, if_neg hn, if_pos hlt]
        simp [atQ, hne]
      · simp only [index, if_neg hn, if_neg hlt]
        by_cases hn2 : n = n2
        · simp [atQ, hn2]
        · simp only [atQ, if_neg hn2]
          exact ih n2 h

theorem mem_index_mono : ∀ (m : SQ) (name : String), ∀ p ∈ m, p ∈ index m name := by
  intro m name
  induction m with
  | nil =>
    intro p hp
    simp at hp
  | cons q rest ih =>
    intro p hp
    obtain ⟨n, w⟩ := q
    by_cases hn : n = name
    · simpa [index, hn] using hp
    · by_cases hlt : strLtB name n = true
      · simp only [index, if_neg hn, if_pos hlt]
        exact List.mem_cons_of_mem _ hp
      · simp only [index, if_neg hn, if_neg hlt]
        rcases List.mem_cons.mp hp with h | h
        · exact List.mem_cons.mpr (Or.inl h)
        · exact List.mem_cons_of_mem _ (ih p h)

theorem length_index_absent : ∀ (m : SQ) (name : String),
    atQ m name = none → (index m name).length = m.length + 1 := by
  intro m name
  induction m with
  | nil =>
    intro _
    rfl
  | cons q rest ih =>
    intro h
    obtain ⟨n, w⟩ := q
    by_cases hn : n = name
    · simp [atQ, hn] at h
    · simp only [atQ, if_neg hn] at h
      by_cases hlt : strLtB name n = true
      · simp [index, if_neg hn, hlt]
      · simp only [index, if_neg hn, if_neg hlt]
        simp [ih h]

end ScalarResourceQuantities

theorem atQ_of_mem : ∀ {m : SQ} {name : String} {v : Rat},
    SortedQ m → (name, v) ∈ m → ScalarResourceQuantities.atQ m name = some v := by
  intro m
  induction m with
  | nil =>
    intro name v _ hv
    simp at hv
  | cons q rest ih =>
    intro name v hs hv
    obtain ⟨n, w⟩ := q
    rw [sortedQ_cons] at hs
    obtain ⟨hhead, htail⟩ := hs
    by_cases hn : n = name
    · subst hn
      rcases List.mem_cons.mp hv with h | h
      · injection h with h1 h2
        simp [ScalarResourceQuantities.atQ, h2]
      · exfalso
        have h2 := hhead (n, v) h
        rw [strLtB_irrefl] at h2
        exact Bool.false_ne_true h2
    · rcases List.mem_cons.mp hv with h | h
      · exfalso
        injection h with h1 h2
        exact hn h1.symm
      · simp only [ScalarResourceQuantities.atQ, if_neg hn]
        exact ih htail h

/-- C2: ScalarResourceQuantities::contains returns true exactly when the
quantity stored for the name is strictly positive, and in particular returns
false when the name is absent from the map. -/
theorem contains_iff_positive_quantity (m : SQ) (name : String) :
    (ScalarResourceQuantities.contains m name = true ↔
      ∃ v, ScalarResourceQuantities.atQ m name = some v ∧ 0 < v)
    ∧ (ScalarResourceQuantities.atQ m name = none →
      ScalarResourceQuantities.contains m name = false) := by
  induction m with
  | nil =>
    simp [ScalarResourceQuantities.contains, ScalarResourceQuantities.atQ]
  | cons q rest ih =>
    obtain ⟨n, w⟩ := q
    by_cases hn : n = name
    · subst hn
      simp [ScalarResourceQuantities.contains, ScalarResourceQuantities.atQ]
    · simpa [ScalarResourceQuantities.contains, ScalarResourceQuantities.atQ, hn] using ih

/-- C3: the subscript operator preserves the sorted-by-name invariant of the
quantities vector; for a present name it leaves the vector unchanged with the
stored value readable at the slot, and for an absent name it inserts a
zero-initialized entry that is then readable at the slot. -/
theorem index_preserves_sorted_invariant (m : SQ) (name : String) (hs : SortedQ m) :
    SortedQ (ScalarResourceQuantities.index m name)
    ∧ (∀ v, ScalarResourceQuantities.atQ m name = some v →
        ScalarResourceQuantities.index m name = m
          ∧ ScalarResourceQuantities.atQ
              (ScalarResourceQuantities.index m name) name = some v)
    ∧ (ScalarResourceQuantities.atQ m name = none →
        ScalarResourceQuantities.atQ
          (ScalarResourceQuantities.index m name) name = some 0) := by
  refine ⟨ScalarResourceQuantities.sorted_index m name hs, ?_, ?_⟩
  · intro v hv
    have he := ScalarResourceQuantities.index_of_present m name v hs hv
    exact ⟨he, by rw [he, hv]⟩
  · exact ScalarResourceQuantities.atQ_index_absent m name

/-- Witness for C3 at a concrete sorted map and an absent name. -/
theorem index_preserves_sorted_invariant_witness :
    SortedQ (ScalarResourceQuantities.index [("cpus", (4 : Rat)), ("mem", 8)] "disk")
    ∧ (∀ v, ScalarResourceQuantities.atQ [("cpus", (4 : Rat)), ("mem", 8)] "disk" = some v →
        ScalarResourceQuantities.index [("cpus", (4 : Rat)), ("mem", 8)] "disk"
            = [("cpus", (4 : Rat)), ("mem", 8)]
          ∧ ScalarResourceQuantities.atQ
              (ScalarResourceQuantities.index [("cpus", (4 : Rat)), ("mem", 8)] "disk")
              "disk" = some v)
    ∧ (ScalarResourceQuantities.atQ [("cpus", (4 : Rat)), ("mem", 8)] "disk" = none →
        ScalarResourceQuantities.atQ
          (ScalarResourceQuantities.index [("cpus", (4 : Rat)), ("mem", 8)] "disk")
          "disk" = some 0) :=
  index_preserves_sorted_invariant [("cpus", (4 : Rat)), ("mem", 8)] "disk" (by decide)

/-- C4: at returns the stored scalar for every name present in a sorted map,
and for an absent name reaches the fatal failure branch, modelled as none. -/
theorem atQ_present_or_fatal (m : SQ) (name : String) (hs : SortedQ m) :
    (∀ v, (name, v) ∈ m → ScalarResourceQuantities.atQ m name = some v)
    ∧ ((∀ v, (name, v) ∉ m) → ScalarResourceQuantities.atQ m name = none) := by
  constructor
  · intro v hv
    exact atQ_of_mem hs hv
  · intro h
    apply ScalarResourceQuantities.atQ_eq_none
    intro p hp he
    apply h p.2
    have hpp : (name, p.2) = p := by
      rw [← he]
    rw [hpp]
    exact hp

/-- Witness for C4 at a concrete sorted map, a present name and an absent name. -/
theorem atQ_present_or_fatal_witness :
    ((∀ v, ("cpus", v) ∈ ([("cpus", (4 : Rat)), ("mem", 8)] : SQ) →
        ScalarResourceQuantities.atQ [("cpus", (4 : Rat)), ("mem", 8)] "cpus" = some v)
      ∧ ((∀ v, ("cpus", v) ∉ ([("cpus", (4 : Rat)), ("mem", 8)] : SQ)) →
        ScalarResourceQuantities.atQ [("cpus", (4 : Rat)), ("mem", 8)] "cpus" = none))
    ∧ ((∀ v, ("disk", v) ∈ ([("cpus", (4 : Rat)), ("mem", 8)] : SQ) →
        ScalarResourceQuantities.atQ [("cpus", (4 : Rat)), ("mem", 8)] "disk" = some v)
      ∧ ((∀ v, ("disk", v) ∉ ([("cpus", (4 : Rat)), ("mem", 8)] : SQ)) →
        ScalarResourceQuantities.atQ [("cpus", (4 : Rat)), ("mem", 8)] "disk" = none)) :=
  ⟨atQ_present_or_fatal [("cpus", (4 : Rat)), ("mem", 8)] "cpus" (by decide),
   atQ_present_or_fatal [("cpus", (4 : Rat)), ("mem", 8)] "disk" (by decide)⟩

/-- C9: after the subscript operator inserts a zero entry for an absent name,
contains still answers false and at returns the zero scalar, while the entry
is visible to iteration over the vector. -/
theorem index_entry_not_contained (m : SQ) (name : String)
    (h : ScalarResourceQuantities.atQ m name = none) :
    ScalarResourceQuantities.contains
        (ScalarResourceQuantities.index m name) name = false
    ∧ ScalarResourceQuantities.atQ
        (ScalarResourceQuantities.index m name) name = some 0
    ∧ (name, (0 : Rat)) ∈ ScalarResourceQuantities.index m name :=
  ⟨ScalarResourceQuantities.contains_index_absent m name h,
   ScalarResourceQuantities.atQ_index_absent m name h,
   ScalarResourceQuantities.mem_index_absent m name h⟩

/-- Witness for C9 at a concrete map and an absent name. -/
theorem index_entry_not_contained_witness :
    ScalarResourceQuantities.contains
        (ScalarResourceQuantities.index [("cpus", (4 : Rat))] "mem") "mem" = false
    ∧ ScalarResourceQuantities.atQ
        (ScalarResourceQuantities.index [("cpus", (4 : Rat))] "mem") "mem" = some 0
    ∧ ("mem", (0 : Rat)) ∈ ScalarResourceQuantities.index [("cpus", (4 : Rat))] "mem" :=
  index_entry_not_contained [("cpus", (4 : Rat))] "mem" (by decide)

/-- C10: the subscript operator changes no other entry of a sorted map and
removes none, and the entry count grows by one exactly when the name was
absent. -/
theorem index_frame_effect (m : SQ) (name : String) (hs : SortedQ m) :
    (∀ n2, n2 ≠ name →
        ScalarResourceQuantities.atQ (ScalarResourceQuantities.index m name) n2
          = ScalarResourceQuantities.atQ m n2)
    ∧ (∀ p ∈ m, p ∈ ScalarResourceQuantities.index m name)
    ∧ (ScalarResourceQuantities.index m name).length =
        (if ScalarResourceQuantities.atQ m name = none
          then m.length + 1 else m.length) := by
  refine ⟨fun n2 h => ScalarResourceQuantities.atQ_index_ne m name n2 h,
          ScalarResourceQuantities.mem_index_mono m name, ?_⟩
  cases hv : ScalarResourceQuantities.atQ m name with
  | none =>
    rw [if_pos rfl]
    exact ScalarResourceQuantities.length_index_absent m name hv
  | some v =>
    rw [if_neg (Option.some_ne_none v)]
    rw [ScalarResourceQuantities.index_of_present m name v hs hv]

/-- Witness for C10 at a concrete sorted map and an absent name. -/
theorem index_frame_effect_witness :
    (∀ n2, n2 ≠ "disk" →
        ScalarResourceQuantities.atQ
            (ScalarResourceQuantities.index [("cpus", (4 : Rat)), ("mem", 8)] "disk") n2
          = ScalarResourceQuantities.atQ [("cpus", (4 : Rat)), ("mem", 8)] n2)
    ∧ (∀ p ∈ ([("cpus", (4 : Rat)), ("mem", 8)] : SQ),
        p ∈ ScalarResourceQuantities.index [("cpus", (4 : Rat)), ("mem", 8)] "disk")
    ∧ (ScalarResourceQuantities.index [("cpus", (4 : Rat)), ("mem", 8)] "disk").length =
        (if ScalarResourceQuantities.atQ [("cpus", (4 : Rat)), ("mem", 8)] "disk" = none
          then ([("cpus", (4 : Rat)), ("mem", 8)] : SQ).length + 1
          else ([("cpus", (4 : Rat)), ("mem", 8)] : SQ).length) :=
  index_frame_effect [("cpus", (4 : Rat)), ("mem", 8)] "disk" (by decide)

/-- A canonical quantity map: strictly name-sorted with every value positive.
These are the maps the spec arithmetic produces and consumes. -/
def CanonQ (l : SQ) : Prop := SortedQ l ∧ ∀ p ∈ l, 0 < p.2

instance (l : SQ) : Decidable (CanonQ l) :=
  inferInstanceAs (Decidable (SortedQ l ∧ ∀ p ∈ l, 0 < p.2))

/-- Quantity read off a map, zero for an absent name: how the spec treats a
missing entry wherever arithmetic combines two maps. -/
def qval (l : SQ) (n : String) : Rat := (ScalarResourceQuantities.atQ l n).getD 0

theorem qval_nil (n : String) : qval [] n = 0 := rfl

theorem qval_cons_self (n : String) (v : Rat) (t : SQ) : qval ((n, v) :: t) n = v := by
  simp [qval, ScalarResourceQuantities.atQ]

theorem qval_cons_ne {n n2 : String} (v : Rat) (t : SQ) (h : n2 ≠ n) :
    qval ((n, v) :: t) n2 = qval t n2 := by
  have hne : n ≠ n2 := fun he => h he.symm
  simp [qval, ScalarResourceQuantities.atQ, hne]

theorem canonQ_nil : CanonQ [] := by
  refine ⟨sortedQ_nil, ?_⟩
  intro p hp
  simp at hp

theorem canonQ_tail {p : String × Rat} {t : SQ} (h : CanonQ (p :: t)) : CanonQ t :=
  ⟨(sortedQ_cons.mp h.1).2, fun q hq => h.2 q (List.mem_cons_of_mem _ hq)⟩

theorem canonQ_head_lt {p : String × Rat} {t : SQ} (h : CanonQ (p :: t)) :
    ∀ q ∈ t, strLtB p.1 q.1 = true := (sortedQ_cons.mp h.1).1

theorem canonQ_head_pos {p : String × Rat} {t : SQ} (h : CanonQ (p :: t)) : 0 < p.2 :=
  h.2 p (List.mem_cons_self _ _)

theorem qval_eq_zero_of_forall_ne {l : SQ} {n : String} (h : ∀ p ∈ l, p.1 ≠ n) :
    qval l n = 0 := by
  rw [qval, ScalarResourceQuantities.atQ_eq_none h]
  rfl

theorem qval_zero_of_lt_all {l : SQ} {n : String}
    (h : ∀ p ∈ l, strLtB n p.1 = true) : qval l n = 0 :=
  qval_eq_zero_of_forall_ne (fun p hp => (strLtB_ne (h p hp)).symm)

theorem qval_tail_head_zero {p : String × Rat} {t : SQ} (h : CanonQ (p :: t)) :
    qval t p.1 = 0 :=
  qval_zero_of_lt_all (canonQ_head_lt h)

theorem qval_nonneg {l : SQ} (h : CanonQ l) (n : String) : 0 ≤ qval l n := by
  induction l with
  | nil => exact le_refl 0
  | cons q t ih =>
    obtain ⟨m, v⟩ := q
    by_cases hm : n = m
    · subst hm
      rw [qval_cons_self]
      exact le_of_lt (canonQ_head_pos h)
    · rw [qval_cons_ne _ _ hm]
      exact ih (canonQ_tail h)

/-- Modelled from the spec: entrywise combination of quantity maps (the
arithmetic the interface leaves to implementations). insQ adds one
(name, value) contribution into a sorted quantity map, merging with an
existing entry or inserting at the sorted position. -/
def insQ (n : String) (v : Rat) : SQ → SQ
  | [] => [(n, v)]
  | (n2, v2) :: rest =>
    if n2 = n then (n2, ratAdd v2 v) :: rest
    else if strLtB n n2 then (n, v) :: (n2, v2) :: rest
    else (n2, v2) :: insQ n v rest

/-- Modelled from the spec: subtracts one (name, value) contribution from a
quantity map, dropping the entry when nothing positive remains. -/
def subQ1 (n : String) (v : Rat) : SQ → SQ
  | [] => []
  | (n2, v2) :: rest =>
    if n2 = n then (if 0 < ratSub v2 v then (n2, ratSub v2 v) :: rest else rest)
    else (n2, v2) :: subQ1 n v rest

/-- Modelled from the spec: entrywise sum of two quantity maps over the union
of their names, missing entries treated as zero. -/
def addQ (xs ys : SQ) : SQ := ys.foldl (fun acc p => insQ p.1 p.2 acc) xs

/-- Modelled from the spec: entrywise difference of two quantity maps; the
subtracted map must be covered by the first and entries reaching zero vanish. -/
def subQ (xs ys : SQ) : SQ := ys.foldl (fun acc p => subQ1 p.1 p.2 acc) xs

theorem insQ_key_mem (n : String) (v : Rat) : ∀ (l : SQ), ∀ p ∈ insQ n v l,
    p.1 = n ∨ p.1 ∈ l.map Prod.fst := by
  intro l
  induction l with
  | nil =>
    intro p hp
    simp [insQ] at hp
    exact Or.inl (by rw [hp])
  | cons q rest ih =>
    intro p hp
    obtain ⟨n2, v2⟩ := q
    by_cases h2 : n2 = n
    · simp only [insQ, if_pos h2] at hp
      rcases List.mem_cons.mp hp with h | h
      · exact Or.inl (by rw [h, h2])
      · exact Or.inr (by simp; exact Or.inr ⟨p.2, by simpa using h⟩)
    · by_cases hlt : strLtB n n2 = true
      · simp only [insQ, if_neg h2, if_pos hlt] at hp
        rcases List.mem_cons.mp hp with h | h
        · exact Or.inl (by rw [h])
        · exact Or.inr (List.mem_map_of_mem Prod.fst h)
      · simp only [insQ, if_neg h2, if_neg hlt] at hp
        rcases List.mem_cons.mp hp with h | h
        · exact Or.inr (by rw [h]; simp)
        · rcases ih p h with h3 | h3
          · exact Or.inl h3
          · exact Or.inr (by simp at h3 ⊢; exact Or.inr h3)

theorem canonQ_insQ (n : String) (v : Rat) : ∀ {l : SQ}, CanonQ l → 0 < v →
    CanonQ (insQ n v l) := by
  intro l
  induction l with
  | nil =>
    intro _ hv
    refine ⟨?_, ?_⟩
    · rw [insQ, sortedQ_cons]
      exact ⟨by intro q hq; simp at hq, sortedQ_nil⟩
    · intro p hp
      simp [insQ] at hp
      rw [hp]
      exact hv
  | cons q rest ih =>
    intro hl hv
    obtain ⟨n2, v2⟩ := q
    by_cases h2 : n2 = n
    · simp only [insQ, if_pos h2]
      refine ⟨?_, ?_⟩
      · rw [sortedQ_cons]
        exact ⟨fun q hq => canonQ_head_lt hl q hq, (sortedQ_cons.mp hl.1).2⟩
      · intro p hp
        rcases List.mem_cons.mp hp with h | h
        · rw [h]
          have hpos : 0 < v2 := canonQ_head_pos hl
          show 0 < ratAdd v2 v
          rw [ratAdd_eq]
          exact add_pos hpos hv
        · exact hl.2 p (List.mem_cons_of_mem _ h)
    · by_cases hlt : strLtB n n2 = true
      · simp only [insQ, if_neg h2, if_pos hlt]
        refine ⟨?_, ?_⟩
        · rw [sortedQ_cons]
          refine ⟨?_, hl.1⟩
          intro p hp
          rcases List.mem_cons.mp hp with h | h
          · rw [h]
            exact hlt
          · exact strLtB_trans hlt (canonQ_head_lt hl p h)
        · intro p hp
          rcases List.mem_cons.mp hp with h | h
          · rw [h]
            exact hv
          · exact hl.2 p h
      · simp only [insQ, if_neg h2, if_neg hlt]
        have hgt : strLtB n2 n = true := by
          rcases strLtB_trichotomy n n2 with h | h | h
          · exact absurd h hlt
          · exact absurd h.symm h2
          · exact h
        have htail := ih (canonQ_tail hl) hv
        refine ⟨?_, ?_⟩
        · rw [sortedQ_cons]
          refine ⟨?_, htail.1⟩
          intro p hp
          rcases insQ_key_mem n v rest p hp with h | h
          · rw [h]
            exact hgt
          · obtain ⟨r, hr, hre⟩ := List.mem_map.mp h
            rw [← hre]
            exact canonQ_head_lt hl r hr
        · intro p hp
          rcases List.mem_cons.mp hp with h | h
          · rw [h]
            exact canonQ_head_pos hl
          · exact htail.2 p h

theorem qval_insQ_self (n : String) (v : Rat) : ∀ {l : SQ}, CanonQ l →
    qval (insQ n v l) n = v + qval l n := by
  intro l
  induction l with
  | nil =>
    intro _
    rw [insQ, qval_cons_self, qval_nil, add_zero]
  | cons q rest ih =>
    intro hl
    obtain ⟨n2, v2⟩ := q
    by_cases h2 : n2 = n
    · subst h2
      have hstep : insQ n2 v ((n2, v2) :: rest) = (n2, ratAdd v2 v) :: rest := by
        simp [insQ]
      rw [hstep, qval_cons_self, qval_cons_self, ratAdd_eq, add_comm]
    · by_cases hlt : strLtB n n2 = true
      · simp only [insQ, if_neg h2, if_pos hlt]
        rw [qval_cons_self]
        have hz : qval ((n2, v2) :: rest) n = 0 := by
          apply qval_zero_of_lt_all
          intro p hp
          rcases List.mem_cons.mp hp with h | h
          · rw [h]
            exact hlt
          · exact strLtB_trans hlt (canonQ_head_lt hl p h)
        rw [hz, add_zero]
      · simp only [insQ, if_neg h2, if_neg hlt]
        have hne : n ≠ n2 := fun he => h2 he.symm
        rw [qval_cons_ne _ _ hne, qval_cons_ne _ _ hne]
        exact ih (canonQ_tail hl)

theorem qval_insQ_ne (n : String) (v : Rat) {n2 : String} (h : n2 ≠ n) :
    ∀ (l : SQ), qval (insQ n v l) n2 = qval l n2 := by
  intro l
  induction l with
  | nil =>
    rw [insQ, qval_cons_ne _ _ h, qval_nil]
  | cons q rest ih =>
    obtain ⟨n3, v3⟩ := q
    by_cases h3 : n3 = n
    · subst h3
      have hstep : insQ n3 v ((n3, v3) :: rest) = (n3, ratAdd v3 v) :: rest := by
        simp [insQ]
      rw [hstep, qval_cons_ne _ _ h, qval_cons_ne _ _ h]
    · by_cases hlt : strLtB n n3 = true
      · simp only [insQ, if_neg h3, if_pos hlt]
        rw [qval_cons_ne _ _ h]
      · simp only [insQ, if_neg h3, if_neg hlt]
        by_cases h32 : n2 = n3
        · subst h32
          rw [qval_cons_self, qval_cons_self]
        · rw [qval_cons_ne _ _ h32, qval_cons_ne _ _ h32]
          exact ih

theorem subQ1_key_mem (n : String) (v : Rat) : ∀ (l : SQ), ∀ p ∈ subQ1 n v l,
    p.1 ∈ l.map Prod.fst := by
  intro l
  induction l with
  | nil =>
    intro p hp
    simp [subQ1] at hp
  | cons q rest ih =>
    intro p hp
    obtain ⟨n2, v2⟩ := q
    simp only [List.map_cons]
    by_cases h2 : n2 = n
    · simp only [subQ1, if_pos h2] at hp
      by_cases hg : 0 < ratSub v2 v
      · rw [if_pos hg] at hp
        rcases List.mem_cons.mp hp with h | h
        · rw [h]
          exact List.mem_cons_self _ _
        · exact List.mem_cons_of_mem _ (List.mem_map_of_mem Prod.fst h)
      · rw [if_neg hg] at hp
        exact List.mem_cons_of_mem _ (List.mem_map_of_mem Prod.fst hp)
    · simp only [subQ1, if_neg h2] at hp
      rcases List.mem_cons.mp hp with h | h
      · rw [h]
        exact List.mem_cons_self _ _
      · exact List.mem_cons_of_mem _ (ih p h)

theorem canonQ_subQ1 (n : String) (v : Rat) : ∀ {l : SQ}, CanonQ l →
    CanonQ (subQ1 n v l) := by
  intro l
  induction l with
  | nil =>
    intro _
    exact canonQ_nil
  | cons q rest ih =>
    intro hl
    obtain ⟨n2, v2⟩ := q
    by_cases h2 : n2 = n
    · simp only [subQ1, if_pos h2]
      by_cases hg : 0 < ratSub v2 v
      · rw [if_pos hg]
        refine ⟨?_, ?_⟩
        · rw [sortedQ_cons]
          exact ⟨fun q hq => canonQ_head_lt hl q hq, (sortedQ_cons.mp hl.1).2⟩
        · intro p hp
          rcases List.mem_cons.mp hp with h | h
          · rw [h]
            exact hg
          · exact hl.2 p (List.mem_cons_of_mem _ h)
      · rw [if_neg hg]
        exact canonQ_tail hl
    · simp only [subQ1, if_neg h2]
      have htail := ih (canonQ_tail hl)
      refine ⟨?_, ?_⟩
      · rw [sortedQ_cons]
        refine ⟨?_, htail.1⟩
        intro p hp
        rcases List.mem_map.mp (subQ1_key_mem n v rest p hp) with ⟨r, hr, hre⟩
        rw [← hre]
        exact canonQ_head_lt hl r hr
      · intro p hp
        rcases List.mem_cons.mp hp with h | h
        · rw [h]
          exact canonQ_head_pos hl
        · exact htail.2 p h

theorem qval_subQ1_self (n : String) (v : Rat) (hv : 0 < v) : ∀ {l : SQ}, CanonQ l →
    qval (subQ1 n v l) n = max (qval l n - v) 0 := by
  intro l
  induction l with
  | nil =>
    intro _
    rw [subQ1, qval_nil, zero_sub]
    exact (max_eq_right (neg_nonpos.mpr (le_of_lt hv))).symm
  | cons q rest ih =>
    intro hl
    obtain ⟨n2, v2⟩ := q
    by_cases h2 : n2 = n
    · subst h2
      by_cases hg : 0 < ratSub v2 v
      · have hstep : subQ1 n2 v ((n2, v2) :: rest) = (n2, ratSub v2 v) :: rest := by
          simp [subQ1, hg]
        rw [hstep, qval_cons_self, qval_cons_self, ratSub_eq]
        rw [ratSub_eq] at hg
        exact (max_eq_left (le_of_lt hg)).symm
      · have hstep : subQ1 n2 v ((n2, v2) :: rest) = rest := by
          simp [subQ1, hg]
        have hz : qval rest n2 = 0 := qval_tail_head_zero hl
        rw [hstep, hz, qval_cons_self]
        rw [ratSub_eq] at hg
        exact (max_eq_right (not_lt.mp hg)).symm
    · have hne : n ≠ n2 := fun he => h2 he.symm
      have hstep : subQ1 n v ((n2, v2) :: rest) = (n2, v2) :: subQ1 n v rest := by
        simp [subQ1, h2]
      rw [hstep, qval_cons_ne _ _ hne, qval_cons_ne _ _ hne]
      exact ih (canonQ_tail hl)

theorem qval_subQ1_ne (n : String) (v : Rat) {n2 : String} (h : n2 ≠ n) :
    ∀ (l : SQ), qval (subQ1 n v l) n2 = qval l n2 := by
  intro l
  induction l with
  | nil =>
    rw [subQ1]
  | cons q rest ih =>
    obtain ⟨n3, v3⟩ := q
    by_cases h3 : n3 = n
    · subst h3
      have hh : n2 ≠ n3 := h
      by_cases hg : 0 < ratSub v3 v
      · have hstep : subQ1 n3 v ((n3, v3) :: rest) = (n3, ratSub v3 v) :: rest := by
          simp [subQ1, hg]
        rw [hstep, qval_cons_ne _ _ hh, qval_cons_ne _ _ hh]
      · have hstep : subQ1 n3 v ((n3, v3) :: rest) = rest := by
          simp [subQ1, hg]
        rw [hstep, qval_cons_ne _ _ hh]
    · have hstep : subQ1 n v ((n3, v3) :: rest) = (n3, v3) :: subQ1 n v rest := by
        simp [subQ1, h3]
      rw [hstep]
      by_cases h32 : n2 = n3
      · subst h32
        rw [qval_cons_self, qval_cons_self]
      · rw [qval_cons_ne _ _ h32, qval_cons_ne _ _ h32]
        exact ih

theorem addQ_nil (xs : SQ) : addQ xs [] = xs := rfl

theorem addQ_cons (xs : SQ) (p : String × Rat) (ys : SQ) :
    addQ xs (p :: ys) = addQ (insQ p.1 p.2 xs) ys := rfl

theorem subQ_nil (xs : SQ) : subQ xs [] = xs := rfl

theorem subQ_cons (xs : SQ) (p : String × Rat) (ys : SQ) :
    subQ xs (p :: ys) = subQ (subQ1 p.1 p.2 xs) ys := rfl

theorem canonQ_addQ : ∀ (ys xs : SQ), CanonQ xs → CanonQ ys → CanonQ (addQ xs ys) := by
  intro ys
  induction ys with
  | nil =>
    intro xs hx _
    exact hx
  | cons p ys ih =>
    intro xs hx hy
    rw [addQ_cons]
    exact ih _ (canonQ_insQ p.1 p.2 hx (canonQ_head_pos hy)) (canonQ_tail hy)

theorem qval_addQ : ∀ (ys xs : SQ), CanonQ xs → CanonQ ys → ∀ n,
    qval (addQ xs ys) n = qval xs n + qval ys n := by
  intro ys
  induction ys with
  | nil =>
    intro xs _ _ n
    rw [addQ_nil, qval_nil, add_zero]
  | cons p ys ih =>
    intro xs hx hy n
    obtain ⟨m, w⟩ := p
    rw [addQ_cons]
    have h1 := ih (insQ m w xs) (canonQ_insQ m w hx (canonQ_head_pos hy)) (canonQ_tail hy) n
    rw [h1]
    by_cases hm : n = m
    · subst hm
      rw [qval_insQ_self n w hx]
      have hz : qval ys n = 0 := qval_tail_head_zero hy
      rw [hz, qval_cons_self]
      ring
    · rw [qval_insQ_ne m w hm xs, qval_cons_ne _ _ hm]

theorem canonQ_subQ : ∀ (ys xs : SQ), CanonQ xs → CanonQ (subQ xs ys) := by
  intro ys
  induction ys with
  | nil =>
    intro xs hx
    exact hx
  | cons p ys ih =>
    intro xs hx
    rw [subQ_cons]
    exact ih _ (canonQ_subQ1 p.1 p.2 hx)

theorem qval_subQ : ∀ (ys xs : SQ), CanonQ xs → CanonQ ys → ∀ n,
    qval (subQ xs ys) n = max (qval xs n - qval ys n) 0 := by
  intro ys
  induction ys with
  | nil =>
    intro xs hx _ n
    rw [subQ_nil, qval_nil, sub_zero]
    exact (max_eq_left (qval_nonneg hx n)).symm
  | cons p ys ih =>
    intro xs hx hy n
    obtain ⟨m, w⟩ := p
    rw [subQ_cons]
    have h1 := ih (subQ1 m w xs) (canonQ_subQ1 m w hx) (canonQ_tail hy) n
    rw [h1]
    by_cases hm : n = m
    · subst hm
      have h2 : qval (subQ1 n w xs) n = max (qval xs n - w) 0 :=
        qval_subQ1_self n w (canonQ_head_pos hy) hx
      have hz : qval ys n = 0 := qval_tail_head_zero hy
      rw [h2, hz, qval_cons_self, sub_zero, max_assoc, max_self]
    · rw [qval_subQ1_ne m w hm xs, qval_cons_ne _ _ hm]

theorem canonQ_ext : ∀ (l1 l2 : SQ), CanonQ l1 → CanonQ l2 →
    (∀ n, qval l1 n = qval l2 n) → l1 = l2 := by
  intro l1
  induction l1 with
  | nil =>
    intro l2 _ h2 h
    cases l2 with
    | nil => rfl
    | cons q t =>
      exfalso
      obtain ⟨m, w⟩ := q
      have hv := h m
      rw [qval_nil, qval_cons_self] at hv
      have hw : 0 < w := canonQ_head_pos h2
      rw [← hv] at hw
      exact lt_irrefl 0 hw
  | cons p t1 ih =>
    intro l2 h1 h2 h
    obtain ⟨m1, w1⟩ := p
    cases l2 with
    | nil =>
      exfalso
      have hv := h m1
      rw [qval_cons_self, qval_nil] at hv
      have hw : 0 < w1 := canonQ_head_pos h1
      rw [hv] at hw
      exact lt_irrefl 0 hw
    | cons q t2 =>
      obtain ⟨m2, w2⟩ := q
      have hm : m1 = m2 := by
        rcases strLtB_trichotomy m1 m2 with hlt | heq | hgt
        · exfalso
          have hz : qval ((m2, w2) :: t2) m1 = 0 := by
            apply qval_zero_of_lt_all
            intro r hr
            rcases List.mem_cons.mp hr with hh | hh
            · rw [hh]
              exact hlt
            · exact strLtB_trans hlt (canonQ_head_lt h2 r hh)
          have hv := h m1
          rw [qval_cons_self, hz] at hv
          have hw : 0 < w1 := canonQ_head_pos h1
          rw [hv] at hw
          exact lt_irrefl 0 hw
        · exact heq
        · exfalso
          have hz : qval ((m1, w1) :: t1) m2 = 0 := by
            apply qval_zero_of_lt_all
            intro r hr
            rcases List.mem_cons.mp hr with hh | hh
            · rw [hh]
              exact hgt
            · exact strLtB_trans hgt (canonQ_head_lt h1 r hh)
          have hv := h m2
          rw [hz, qval_cons_self] at hv
          have hw : 0 < w2 := canonQ_head_pos h2
          rw [← hv] at hw
          exact lt_irrefl 0 hw
      subst hm
      have hw : w1 = w2 := by
        have hv := h m1
        rw [qval_cons_self, qval_cons_self] at hv
        exact hv
      subst hw
      have htl : t1 = t2 := by
        apply ih t2 (canonQ_tail h1) (canonQ_tail h2)
        intro n
        by_cases hn : n = m1
        · subst hn
          have hz1 : qval t1 n = 0 := qval_tail_head_zero h1
          have hz2 : qval t2 n = 0 := qval_tail_head_zero h2
          rw [hz1, hz2]
        · have hv := h n
          rw [qval_cons_ne _ _ hn, qval_cons_ne _ _ hn] at hv
          exact hv
      rw [htl]

theorem subQ_addQ_cancel {m r : SQ} (hm : CanonQ m) (hr : CanonQ r) :
    subQ (addQ m r) r = m := by
  have hadd := canonQ_addQ r m hm hr
  apply canonQ_ext _ _ (canonQ_subQ r _ hadd) hm
  intro n
  rw [qval_subQ r _ hadd hr n, qval_addQ r m hm hr n]
  have h0 : 0 ≤ qval m n := qval_nonneg hm n
  have he : qval m n + qval r n - qval r n = qval m n := by ring
  rw [he, max_eq_left h0]

/-- Association list lookup used by the modelled Sorter state. -/
def alookup {α β : Type} [DecidableEq α] : List (α × β) → α → Option β
  | [], _ => none
  | (k, v) :: rest, key => if k = key then some v else alookup rest key

/-- Association list update: overwrites the entry for the key or appends it. -/
def assocSet {α β : Type} [DecidableEq α] : List (α × β) → α → β → List (α × β)
  | [], key, val => [(key, val)]
  | (k, v) :: rest, key, val =>
    if k = key then (key, val) :: rest
    else (k, v) :: assocSet rest key val

theorem alookup_assocSet_self {α β : Type} [DecidableEq α]
    (l : List (α × β)) (k : α) (v : β) : alookup (assocSet l k v) k = some v := by
  induction l with
  | nil =>
    simp [assocSet, alookup]
  | cons p rest ih =>
    obtain ⟨k2, v2⟩ := p
    by_cases h : k2 = k
    · simp [assocSet, if_pos h, alookup]
    · simp only [assocSet, if_neg h, alookup]
      exact ih

/-- Modelled from the spec: the state of one Sorter instance, holding the
added clients, the active subset, the per-path weight overrides, the
per-(client, node) allocation ledger, the cached per-client stripped scalar
totals, the pool total, and the lazily cached sort output that every
mutation invalidates. The Sorter class of the source file is pure virtual,
so this concrete state follows the data model of the spec. -/
structure SorterState where
  clients : List String
  active : List String
  weights : List (String × Rat)
  alloc : List ((String × String) × SQ)
  allocTotals : List (String × SQ)
  total : SQ
  cache : Option (List String)

namespace Sorter

/-- Modelled from the spec: a freshly constructed Sorter with no clients,
no weights, no allocations and an empty pool. -/
def empty : SorterState := ⟨[], [], [], [], [], [], none⟩

/-- Modelled from the spec: Sorter::add for a client. It records the client
and never activates it; adding a present client is a no-op. -/
def add (st : SorterState) (c : String) : SorterState :=
  if c ∈ st.clients then st
  else { st with clients := st.clients ++ [c], cache := none }

/-- Modelled from the spec: Sorter::remove purges the client from the client
set, the active set and every allocation record. -/
def remove (st : SorterState) (c : String) : SorterState :=
  { st with
      clients := st.clients.erase c,
      active := st.active.erase c,
      alloc := st.alloc.filter (fun e => decide (e.1.1 ≠ c)),
      allocTotals := st.allocTotals.filter (fun e => decide (e.1 ≠ c)),
      cache := none }

/-- Modelled from the spec: Sorter::activate readds a client to the sort;
a no-op when the client is already in the sort. -/
def activate (st : SorterState) (c : String) : SorterState :=
  if c ∈ st.active then st
  else { st with active := st.active ++ [c], cache := none }

/-- Modelled from the spec: Sorter::deactivate removes a client from the
sort so it does not get allocated to; a no-op when already out. -/
def deactivate (st : SorterState) (c : String) : SorterState :=
  { st with active := st.active.erase c, cache := none }

/-- Modelled from the spec: Sorter::updateWeight sets or overwrites the
weight at a path; it never removes entries and there is no unset. -/
def updateWeight (st : SorterState) (path : String) (w : Rat) : SorterState :=
  { st with weights := assocSet st.weights path w, cache := none }

/-- Modelled from the spec: the resources allocated to a client on one
node, empty when none are recorded. -/
def allocation (st : SorterState) (c nd : String) : SQ :=
  (alookup st.alloc (c, nd)).getD []

/-- Modelled from the spec: the cached stripped scalar total allocated to
a client across all nodes. -/
def allocationScalarQuantities (st : SorterState) (c : String) : SQ :=
  (alookup st.allocTotals c).getD []

/-- Modelled from the spec: Sorter::allocated adds the resources to the
per-(client, node) record and to the cached client total. Resource sets are
modelled by their stripped scalar quantity maps. -/
def allocated (st : SorterState) (c nd : String) (r : SQ) : SorterState :=
  { st with
      alloc := assocSet st.alloc (c, nd) (addQ (allocation st c nd) r),
      allocTotals := assocSet st.allocTotals c
        (addQ (allocationScalarQuantities st c) r),
      cache := none }

/-- Modelled from the spec: Sorter::unallocated, the inverse of allocated,
subtracting a recorded subset of the resources. -/
def unallocated (st : SorterState) (c nd : String) (r : SQ) : SorterState :=
  { st with
      alloc := assocSet st.alloc (c, nd) (subQ (allocation st c nd) r),
      allocTotals := assocSet st.allocTotals c
        (subQ (allocationScalarQuantities st c) r),
      cache := none }

/-- Modelled from the spec: the pool-wide stripped scalar total. -/
def totalScalarQuantities (st : SorterState) : SQ := st.total

/-- Modelled from the spec: Sorter::add for a node adds resources to the
total pool the Sorter considers. -/
def addSlave (st : SorterState) (_nd : String) (r : SQ) : SorterState :=
  { st with total := addQ st.total r, cache := none }

/-- Modelled from the spec: Sorter::remove for a node removes resources
from the total pool. -/
def removeSlave (st : SorterState) (_nd : String) (r : SQ) : SorterState :=
  { st with total := subQ st.total r, cache := none }

/-- Splits a character list on the slash separator. -/
def splitSlash : List Char → List (List Char)
  | [] => [[]]
  | c :: cs =>
    if c = '/' then [] :: splitSlash cs
    else
      match splitSlash cs with
      | [] => [[c]]
      | s :: rest => (c :: s) :: rest

/-- Joins segments with the slash separator. -/
def joinSlash : List (List Char) → List Char
  | [] => []
  | [s] => s
  | s :: rest => s ++ '/' :: joinSlash rest

/-- Modelled from the spec: the ancestor paths of a slash-delimited role
path, most specific first, the path itself included. -/
def ancestors (path : String) : List String :=
  (List.range (splitSlash path.data).length).reverse.map
    (fun k => String.mk (joinSlash ((splitSlash path.data).take (k + 1))))

/-- First explicit weight entry along a list of paths. -/
def findWeight (w : List (String × Rat)) : List String → Option Rat
  | [] => none
  | p :: rest =>
    match alookup w p with
    | some v => some v
    | none => findWeight w rest

/-- Modelled from the spec: the effective weight of a path is the weight of
the most specific ancestor path with an explicit entry, the default 1.0
when none exists. -/
def effectiveWeight (w : List (String × Rat)) (path : String) : Rat :=
  (findWeight w (ancestors path)).getD 1

/-- Modelled from the spec: the dominant share of a client, the maximum over
the names of the pool total of the client stripped quantity divided by the
pool total, a name with pool total zero contributing zero. -/
def dominantShare (st : SorterState) (c : String) : Rat :=
  st.total.foldr
    (fun p acc =>
      ratMax
        (if 0 < p.2 then ratDiv (qval (allocationScalarQuantities st c) p.1) p.2 else 0)
        acc)
    0

/-- Modelled from the spec: the sort key, the dominant share divided by the
effective weight. -/
def shareKey (st : SorterState) (c : String) : Rat :=
  ratDiv (dominantShare st c) (effectiveWeight st.weights c)

/-- Modelled from the spec: the total order on clients used by sort,
ascending weighted dominant share with a lexicographic tie break on the
client identifier for determinism. -/
def sortLe (st : SorterState) (a b : String) : Prop :=
  shareKey st a < shareKey st b ∨ (shareKey st a = shareKey st b ∧ strLeB a b = true)

instance (st : SorterState) : DecidableRel (sortLe st) := fun a b =>
  inferInstanceAs
    (Decidable (shareKey st a < shareKey st b
      ∨ (shareKey st a = shareKey st b ∧ strLeB a b = true)))

instance (st : SorterState) : IsTotal String (sortLe st) := ⟨by
  intro a b
  rcases lt_trichotomy (shareKey st a) (shareKey st b) with h | h | h
  · exact Or.inl (Or.inl h)
  · rcases strLeB_total a b with h2 | h2
    · exact Or.inl (Or.inr ⟨h, h2⟩)
    · exact Or.inr (Or.inr ⟨h.symm, h2⟩)
  · exact Or.inr (Or.inl h)⟩

instance (st : SorterState) : IsTrans String (sortLe st) := ⟨by
  intro a b c hab hbc
  rcases hab with h1 | h1p
  · rcases hbc with h2 | h2p
    · exact Or.inl (lt_trans h1 h2)
    · exact Or.inl (lt_of_lt_of_le h1 (le_of_eq h2p.1))
  · rcases hbc with h2 | h2p
    · exact Or.inl (lt_of_le_of_lt (le_of_eq h1p.1) h2)
    · exact Or.inr ⟨h1p.1.trans h2p.1, strLeB_trans h1p.2 h2p.2⟩⟩

/-- Modelled from the spec: the active clients in the order of the policy,
recomputed from the current state. -/
def sortClients (st : SorterState) : List String :=
  List.insertionSort (sortLe st) st.active

/-- Modelled from the spec: Sorter::sort returns the active clients in
allocation order; shares are recomputed lazily, so the call may fill the
cache and hence returns the possibly updated state as well. -/
def sort (st : SorterState) : List String × SorterState :=
  match st.cache with
  | some o => (o, st)
  | none => (sortClients st, { st with cache := some (sortClients st) })

/-- The cache invariant every reachable state satisfies: the cache is either
invalidated or holds exactly the recomputed order. -/
def cacheOK (st : SorterState) : Prop :=
  st.cache = none ∨ st.cache = some (sortClients st)

instance (st : SorterState) : Decidable (cacheOK st) :=
  inferInstanceAs
    (Decidable (st.cache = none ∨ st.cache = some (sortClients st)))

/-- Modelled from the spec: Sorter::contains answers for active and inactive
clients alike. -/
def contains (st : SorterState) (c : String) : Bool := decide (c ∈ st.clients)

/-- Modelled from the spec: Sorter::count counts active and inactive
clients alike. -/
def count (st : SorterState) : Nat := st.clients.length

end Sorter

theorem sort_fst_of_cacheOK (st : SorterState) (h : Sorter.cacheOK st) :
    (Sorter.sort st).1 = Sorter.sortClients st := by
  rcases h with h | h
  · simp [Sorter.sort, h]
  · simp [Sorter.sort, h]

/-- The concrete scenario of the spec: pool total cpu 10 and mem 10, client X
allocated cpu 8, client Y allocated mem 2, both added, activated and of
default weight. -/
def c1Scenario : SorterState :=
  let s1 := Sorter.add Sorter.empty "X"
  let s2 := Sorter.add s1 "Y"
  let s3 := Sorter.activate s2 "X"
  let s4 := Sorter.activate s3 "Y"
  let s5 := Sorter.addSlave s4 "agent" [("cpu", 10), ("mem", 10)]
  let s6 := Sorter.allocated s5 "X" "agent" [("cpu", 8)]
  Sorter.allocated s6 "Y" "agent" [("mem", 2)]

/-- C1: on a state whose active clients all have effective weight one, sort
returns a permutation of the active clients ordered by ascending dominant
share, and in the concrete scenario with pool cpu 10 and mem 10, client X
holding cpu 8 (share 0.8) and client Y holding mem 2 (share 0.2), sort
returns Y before X. -/
theorem sort_ascending_dominant_share (st : SorterState)
    (hw : ∀ c ∈ st.active, Sorter.effectiveWeight st.weights c = 1)
    (hc : Sorter.cacheOK st) :
    (Sorter.sort st).1.Perm st.active
    ∧ (Sorter.sort st).1.Pairwise
        (fun a b => Sorter.dominantShare st a ≤ Sorter.dominantShare st b)
    ∧ (Sorter.sort c1Scenario).1 = ["Y", "X"] := by
  have hfst := sort_fst_of_cacheOK st hc
  have hperm := List.perm_insertionSort (Sorter.sortLe st) st.active
  refine ⟨?_, ?_, by decide⟩
  · rw [hfst]
    exact hperm
  · rw [hfst]
    have hpw : (Sorter.sortClients st).Pairwise (Sorter.sortLe st) :=
      List.sorted_insertionSort (Sorter.sortLe st) st.active
    apply hpw.imp_of_mem
    intro a b ha hb hab
    have ha2 : a ∈ st.active := hperm.mem_iff.mp ha
    have hb2 : b ∈ st.active := hperm.mem_iff.mp hb
    have hka : Sorter.shareKey st a = Sorter.dominantShare st a := by
      show ratDiv (Sorter.dominantShare st a) (Sorter.effectiveWeight st.weights a)
        = Sorter.dominantShare st a
      rw [hw a ha2, ratDiv_eq, div_one]
    have hkb : Sorter.shareKey st b = Sorter.dominantShare st b := by
      show ratDiv (Sorter.dominantShare st b) (Sorter.effectiveWeight st.weights b)
        = Sorter.dominantShare st b
      rw [hw b hb2, ratDiv_eq, div_one]
    rcases hab with h | hp
    · rw [← hka, ← hkb]
      exact le_of_lt h
    · rw [← hka, ← hkb]
      exact le_of_eq hp.1

/-- Witness for C1 at the concrete scenario state. -/
theorem sort_ascending_dominant_share_witness :
    (Sorter.sort c1Scenario).1.Perm c1Scenario.active
    ∧ (Sorter.sort c1Scenario).1.Pairwise
        (fun a b => Sorter.dominantShare c1Scenario a ≤ Sorter.dominantShare c1Scenario b)
    ∧ (Sorter.sort c1Scenario).1 = ["Y", "X"] :=
  sort_ascending_dominant_share c1Scenario (by decide) (by decide)

/-- C5: adding a client never activates it: the client becomes contained and
counted but stays out of the sort output, and sort returns exactly the
active clients. -/
theorem add_without_activate_excluded (st : SorterState) (c : String)
    (h1 : c ∉ st.clients) (h2 : c ∉ st.active) :
    Sorter.contains (Sorter.add st c) c = true
    ∧ Sorter.count (Sorter.add st c) = Sorter.count st + 1
    ∧ c ∉ (Sorter.sort (Sorter.add st c)).1
    ∧ (Sorter.sort (Sorter.add st c)).1.Perm (Sorter.add st c).active := by
  have hadd : Sorter.add st c
      = { st with clients := st.clients ++ [c], cache := none } := by
    simp [Sorter.add, h1]
  rw [hadd]
  have hfst : (Sorter.sort { st with clients := st.clients ++ [c], cache := none }).1
      = Sorter.sortClients { st with clients := st.clients ++ [c], cache := none } :=
    sort_fst_of_cacheOK _ (Or.inl rfl)
  have hperm := List.perm_insertionSort
    (Sorter.sortLe { st with clients := st.clients ++ [c], cache := none })
    ({ st with clients := st.clients ++ [c], cache := none } : SorterState).active
  refine ⟨?_, ?_, ?_, ?_⟩
  · simp [Sorter.contains]
  · simp [Sorter.count]
  · rw [hfst]
    intro hmem
    exact h2 (hperm.mem_iff.mp hmem)
  · rw [hfst]
    exact hperm

/-- Witness for C5: a fresh client added to the scenario state. -/
theorem add_without_activate_excluded_witness :
    Sorter.contains (Sorter.add c1Scenario "Z") "Z" = true
    ∧ Sorter.count (Sorter.add c1Scenario "Z") = Sorter.count c1Scenario + 1
    ∧ "Z" ∉ (Sorter.sort (Sorter.add c1Scenario "Z")).1
    ∧ (Sorter.sort (Sorter.add c1Scenario "Z")).1.Perm (Sorter.add c1Scenario "Z").active :=
  add_without_activate_excluded c1Scenario "Z" (by decide) (by decide)

/-- C6: allocated immediately followed by unallocated with the same
resources restores the per-node allocation and the cached scalar total of
the client exactly; in particular the allocation is back to empty whenever
it started empty. -/
theorem allocated_unallocated_roundtrip (st : SorterState) (c nd : String) (r : SQ)
    (hr : CanonQ r) (ha : CanonQ (Sorter.allocation st c nd))
    (ht : CanonQ (Sorter.allocationScalarQuantities st c)) :
    Sorter.allocation (Sorter.unallocated (Sorter.allocated st c nd r) c nd r) c nd
        = Sorter.allocation st c nd
    ∧ Sorter.allocationScalarQuantities
        (Sorter.unallocated (Sorter.allocated st c nd r) c nd r) c
        = Sorter.allocationScalarQuantities st c
    ∧ (Sorter.allocation st c nd = [] →
        Sorter.allocation
          (Sorter.unallocated (Sorter.allocated st c nd r) c nd r) c nd = []) := by
  have h1 : Sorter.allocation (Sorter.allocated st c nd r) c nd
      = addQ (Sorter.allocation st c nd) r := by
    simp [Sorter.allocation, Sorter.allocated, alookup_assocSet_self]
  have h2 : Sorter.allocationScalarQuantities (Sorter.allocated st c nd r) c
      = addQ (Sorter.allocationScalarQuantities st c) r := by
    simp [Sorter.allocationScalarQuantities, Sorter.allocated, alookup_assocSet_self]
  have h3 : Sorter.allocation (Sorter.unallocated (Sorter.allocated st c nd r) c nd r) c nd
      = subQ (Sorter.allocation (Sorter.allocated st c nd r) c nd) r := by
    simp [Sorter.allocation, Sorter.unallocated, alookup_assocSet_self]
  have h4 : Sorter.allocationScalarQuantities
        (Sorter.unallocated (Sorter.allocated st c nd r) c nd r) c
      = subQ (Sorter.allocationScalarQuantities (Sorter.allocated st c nd r) c) r := by
    simp [Sorter.allocationScalarQuantities, Sorter.unallocated, alookup_assocSet_self]
  rw [h3, h1, subQ_addQ_cancel ha hr, h4, h2, subQ_addQ_cancel ht hr]
  exact ⟨rfl, rfl, fun he => he⟩

/-- Witness for C6: a concrete round trip on the empty Sorter. -/
theorem allocated_unallocated_roundtrip_witness :
    Sorter.allocation
        (Sorter.unallocated (Sorter.allocated Sorter.empty "X" "agent" [("cpu", 8)])
          "X" "agent" [("cpu", 8)]) "X" "agent"
        = Sorter.allocation Sorter.empty "X" "agent"
    ∧ Sorter.allocationScalarQuantities
        (Sorter.unallocated (Sorter.allocated Sorter.empty "X" "agent" [("cpu", 8)])
          "X" "agent" [("cpu", 8)]) "X"
        = Sorter.allocationScalarQuantities Sorter.empty "X"
    ∧ (Sorter.allocation Sorter.empty "X" "agent" = [] →
        Sorter.allocation
          (Sorter.unallocated (Sorter.allocated Sorter.empty "X" "agent" [("cpu", 8)])
            "X" "agent" [("cpu", 8)]) "X" "agent" = []) :=
  allocated_unallocated_roundtrip Sorter.empty "X" "agent" [("cpu", 8)]
    (by decide) (by decide) (by decide)

/-- C7: sort is deterministic over the state: two sort calls with no
intervening mutation return the identical sequence of client identifiers. -/
theorem sort_deterministic (st : SorterState) (h : Sorter.cacheOK st) :
    (Sorter.sort (Sorter.sort st).2).1 = (Sorter.sort st).1 := by
  rcases h with h | h
  · simp [Sorter.sort, h]
  · simp [Sorter.sort, h]

/-- Witness for C7 at the concrete scenario state. -/
theorem sort_deterministic_witness :
    (Sorter.sort (Sorter.sort c1Scenario).2).1 = (Sorter.sort c1Scenario).1 :=
  sort_deterministic c1Scenario (by decide)

/-- Weight scenario state: weight 2 set at path a. -/
def c8S1 : SorterState := Sorter.updateWeight Sorter.empty "a" 2

/-- Weight scenario state: weight 3 then overridden at path a/b. -/
def c8S2 : SorterState := Sorter.updateWeight c8S1 "a/b" 3

/-- Weight scenario state: path a changed again after the override. -/
def c8S3 : SorterState := Sorter.updateWeight c8S2 "a" 5

theorem findWeight_append_none (w : List (String × Rat)) :
    ∀ (pre rest : List String), (∀ a ∈ pre, alookup w a = none) →
    Sorter.findWeight w (pre ++ rest) = Sorter.findWeight w rest := by
  intro pre
  induction pre with
  | nil =>
    intro rest _
    rfl
  | cons p pre ih =>
    intro rest h
    have hp : alookup w p = none := h p (List.mem_cons_self _ _)
    simp only [List.cons_append, Sorter.findWeight, hp]
    exact ih rest (fun a ha => h a (List.mem_cons_of_mem _ ha))

theorem findWeight_none (w : List (String × Rat)) :
    ∀ (l : List String), (∀ a ∈ l, alookup w a = none) →
    Sorter.findWeight w l = none := by
  intro l
  induction l with
  | nil =>
    intro _
    rfl
  | cons p rest ih =>
    intro h
    have hp : alookup w p = none := h p (List.mem_cons_self _ _)
    simp only [Sorter.findWeight, hp]
    exact ih (fun a ha => h a (List.mem_cons_of_mem _ ha))

/-- C8: the effective weight of a client path is the explicit weight of the
most specific ancestor carrying an entry, the default one when none exists;
setting weight 2 at path a gives a client at path a/b effective weight 2,
overriding path a/b with 3 gives 3, and a later change of path a leaves the
override in force. -/
theorem effective_weight_inheritance :
    (∀ (w : List (String × Rat)) (path : String) (pre : List String) (q : String)
        (suf : List String) (v : Rat),
      Sorter.ancestors path = pre ++ q :: suf →
      (∀ a ∈ pre, alookup w a = none) →
      alookup w q = some v →
      Sorter.effectiveWeight w path = v)
    ∧ (∀ (w : List (String × Rat)) (path : String),
        (∀ a ∈ Sorter.ancestors path, alookup w a = none) →
        Sorter.effectiveWeight w path = 1)
    ∧ Sorter.effectiveWeight c8S1.weights "a/b" = 2
    ∧ Sorter.effectiveWeight c8S2.weights "a/b" = 3
    ∧ Sorter.effectiveWeight c8S3.weights "a/b" = 3 := by
  refine ⟨?_, ?_, by decide, by decide, by decide⟩
  · intro w path pre q suf v hanc hpre hq
    show (Sorter.findWeight w (Sorter.ancestors path)).getD 1 = v
    rw [hanc, findWeight_append_none w pre (q :: suf) hpre]
    simp [Sorter.findWeight, hq]
  · intro w path h
    show (Sorter.findWeight w (Sorter.ancestors path)).getD 1 = 1
    rw [findWeight_none w _ h]
    rfl
